import Mathlib

/-!
Verification of the glacier_mapping repository's array utilities
(`src/utils.py`) and training wrapper (`src/utils/frame.py`) against its
natural-language specification.

Arrays are embedded as nested lists (`List (List β)` for a 2D array of
rows, where `β` is a scalar for 2D images and a channel list for 3D
images), and elementwise band/mask operations as functions on pixel
coordinates.  Python/numpy basic slicing, including negative-index
normalization and clamping, is embedded explicitly (`pyNorm`, `pySlice`).
-/

namespace GlacierMapping

/-- Python/numpy basic slice endpoint normalization for an axis of length
`n`: a negative index counts from the end (`s + n`), and the result is
clamped into `[0, n]`. -/
def pyNorm (s : Int) (n : Nat) : Nat :=
  (min (max (if s < 0 then s + n else s) 0) n).toNat

/-- Python/numpy basic slicing `xs[a:b]` (step 1): both endpoints are
normalized against the list length, then the elements from the normalized
start (inclusive) to the normalized end (exclusive) are taken. -/
def pySlice (a b : Int) (xs : List α) : List α :=
  (xs.drop (pyNorm a xs.length)).take (pyNorm b xs.length - pyNorm a xs.length)

/-- `img` is a rectangular (numpy-shaped) 2D array with `h` rows, each of
width `w`. -/
def IsRect (img : List (List β)) (h w : Nat) : Prop :=
  img.length = h ∧ ∀ row ∈ img, row.length = w

instance (img : List (List β)) (h w : Nat) : Decidable (IsRect img h w) :=
  inferInstanceAs (Decidable (img.length = h ∧ ∀ row ∈ img, row.length = w))

/-- The slice start index used by `slice_image` (utils.py lines 90-97) for
tile index `idx` on an axis of extent `n` with tile size `t`: nominally
`idx*t`, replaced by `-t` when the nominal end `(idx+1)*t` exceeds `n`
("the last tile need to be of the same size as well"). -/
def tileStart (t n idx : Nat) : Int :=
  if (idx + 1) * t > n then -(t : Int) else ((idx * t : Nat) : Int)

/-- The tile appended by the loop body of `slice_image` for tile indices
`(i, j)`: `img[start_i:end_i, start_j:end_j]` (with the trailing `[:, :]`
on the channel axis, when present, the identity). -/
def tileBody (img : List (List β)) (h w th tw i j : Nat) : List (List β) :=
  (pySlice (tileStart th h i) (((i + 1) * th : Nat) : Int) img).map
    (fun row => pySlice (tileStart tw w j) (((j + 1) * tw : Nat) : Int) row)

/-- `math.ceil(n / t)`, the tile count along one axis; on naturals with
`1 ≤ t` this is `(n + t - 1) / t`. -/
def nSlices (n t : Nat) : Nat := (n + t - 1) / t

/-- `slice_image` from utils.py (lines 78-103): split `img` (shape `(h, w)`
or `(h, w, c)`) into `ceil(h/th) * ceil(w/tw)` tiles, appended in row-major
order of the tile indices. -/
def slice_image (img : List (List β)) (size : Nat × Nat) : List (List (List β)) :=
  let h := img.length
  let w := (img.headD []).length
  let h_slices := nSlices h size.1
  let w_slices := nSlices w size.2
  ((List.range h_slices).map (fun i =>
    (List.range w_slices).map (fun j => tileBody img h w size.1 size.2 i j))).flatten

/-! ### Evaluation lemmas for Python slicing -/

theorem pyNorm_natCast (a n : Nat) : pyNorm (a : Int) n = min a n := by
  unfold pyNorm; split <;> omega

theorem pyNorm_ge (e : Int) (n : Nat) (h : (n : Int) ≤ e) : pyNorm e n = n := by
  unfold pyNorm; split <;> omega

theorem pyNorm_negCoe (t n : Nat) (ht : 1 ≤ t) : pyNorm (-(t : Int)) n = n - t := by
  unfold pyNorm; split <;> omega

theorem pySlice_natCast (a b : Nat) (xs : List α) (hb : b ≤ xs.length) :
    pySlice (a : Int) (b : Int) xs = (xs.drop a).take (b - a) := by
  unfold pySlice
  rw [pyNorm_natCast, pyNorm_natCast]
  rcases le_or_lt a xs.length with h | h
  · rw [min_eq_left h, min_eq_left hb]
  · rw [min_eq_right h.le, min_eq_left hb,
      List.drop_eq_nil_of_le (le_refl xs.length), List.drop_eq_nil_of_le h.le,
      List.take_nil, List.take_nil]

theorem pySlice_last (t : Nat) (e : Int) (xs : List α) (ht : 1 ≤ t)
    (he : (xs.length : Int) ≤ e) :
    pySlice (-(t : Int)) e xs = xs.drop (xs.length - t) := by
  unfold pySlice
  rw [pyNorm_negCoe _ _ ht, pyNorm_ge _ _ he,
    show xs.length - (xs.length - t) = (xs.drop (xs.length - t)).length from by
      simp [List.length_drop]]
  exact List.take_length _

/-- Interior tile on an axis: when the nominal window fits, the slice is
`xs[idx*t : (idx+1)*t]`. -/
theorem pySlice_tile_interior (t idx : Nat) (xs : List α)
    (hfit : (idx + 1) * t ≤ xs.length) :
    pySlice (tileStart t xs.length idx) (((idx + 1) * t : Nat) : Int) xs =
      (xs.drop (idx * t)).take t := by
  have hstart : tileStart t xs.length idx = ((idx * t : Nat) : Int) := by
    unfold tileStart
    rw [if_neg (by omega)]
  rw [hstart, pySlice_natCast _ _ _ hfit]
  congr 1
  rw [Nat.add_mul, one_mul]
  omega

/-- Boundary tile on an axis: when the nominal window overruns, the start
is shifted to `-t` and the slice is the last `t` elements (`xs[n-t : n]`,
with truncated subtraction: the whole list when `t > n`). -/
theorem pySlice_tile_boundary (t idx : Nat) (xs : List α) (ht : 1 ≤ t)
    (hover : xs.length < (idx + 1) * t) :
    pySlice (tileStart t xs.length idx) (((idx + 1) * t : Nat) : Int) xs =
      xs.drop (xs.length - t) := by
  have hstart : tileStart t xs.length idx = -(t : Int) := by
    unfold tileStart
    rw [if_pos hover]
  rw [hstart, pySlice_last _ _ _ ht (by exact_mod_cast hover.le)]

/-! ### Arithmetic of the tile counts -/

theorem nSlices_mul_lt {n t i : Nat} (ht : 1 ≤ t) (hi : i < nSlices n t) :
    i * t < n := by
  have h2 : (i + 1) * t ≤ n + t - 1 :=
    (Nat.le_div_iff_mul_le ht).mp (Nat.succ_le_of_lt hi)
  rw [Nat.add_mul, one_mul] at h2
  omega

theorem nSlices_exact (k t : Nat) (ht : 1 ≤ t) : nSlices (k * t) t = k := by
  unfold nSlices
  rw [show k * t + t - 1 = (t - 1) + t * k from by
        rw [Nat.mul_comm t k]; omega,
    Nat.add_mul_div_left _ _ ht, Nat.div_eq_of_lt (by omega)]
  omega

theorem nSlices_eq_one {n t : Nat} (h1 : 1 ≤ n) (h2 : n ≤ t) : nSlices n t = 1 := by
  unfold nSlices
  exact Nat.div_eq_of_lt_le (by omega) (by omega)

/-! ### Structure of `slice_image` -/

theorem slice_image_def (img : List (List β)) (th tw : Nat) :
    slice_image img (th, tw) =
      ((List.range (nSlices img.length th)).map (fun i =>
        (List.range (nSlices (img.headD []).length tw)).map (fun j =>
          tileBody img img.length (img.headD []).length th tw i j))).flatten := rfl

theorem slice_image_length (img : List (List β)) (th tw : Nat) :
    (slice_image img (th, tw)).length =
      nSlices img.length th * nSlices (img.headD []).length tw := by
  rw [slice_image_def, List.length_flatten, List.map_map]
  simp only [Function.comp_def, List.length_map, List.length_range]
  rw [List.map_const', List.length_range, List.sum_replicate, smul_eq_mul]

theorem slice_image_mem {img : List (List β)} {th tw : Nat} {t : List (List β)}
    (htile : t ∈ slice_image img (th, tw)) :
    ∃ i j, i < nSlices img.length th ∧ j < nSlices (img.headD []).length tw ∧
      t = tileBody img img.length (img.headD []).length th tw i j := by
  rw [slice_image_def, List.mem_flatten] at htile
  obtain ⟨l, hl, htl⟩ := htile
  obtain ⟨i, hi, rfl⟩ := List.mem_map.mp hl
  obtain ⟨j, hj, hjeq⟩ := List.mem_map.mp htl
  exact ⟨i, j, List.mem_range.mp hi, List.mem_range.mp hj, hjeq.symm⟩

/-- Indexing the flattening of a list of equal-length blocks. -/
theorem flatten_getElem (L : List (List γ)) (m : Nat) (hm : ∀ l ∈ L, l.length = m)
    (i j : Nat) (hi : i < L.length) (hj : j < m) :
    L.flatten[i * m + j]? = (L.getD i [])[j]? := by
  induction L generalizing i with
  | nil => simp at hi
  | cons l L ih =>
    have hl : l.length = m := hm l (List.mem_cons_self _ _)
    cases i with
    | zero =>
      rw [Nat.zero_mul, Nat.zero_add, List.flatten_cons,
        List.getElem?_append_left (by omega), List.getD_cons_zero]
    | succ i =>
      rw [List.flatten_cons,
        show (i + 1) * m + j = l.length + (i * m + j) from by
          rw [Nat.add_mul, one_mul]; omega,
        List.getElem?_append_right (by omega), Nat.add_sub_cancel_left,
        List.getD_cons_succ]
      exact ih (fun x hx => hm x (List.mem_cons_of_mem _ hx)) i
        (by simpa using hi)

/-- Row-major indexing of `slice_image`: the tile at flat position
`i * w_slices + j` is the loop body at tile indices `(i, j)`. -/
theorem slice_image_getElem (img : List (List β)) (th tw i j : Nat)
    (hi : i < nSlices img.length th)
    (hj : j < nSlices (img.headD []).length tw) :
    (slice_image img (th, tw))[i * nSlices (img.headD []).length tw + j]? =
      some (tileBody img img.length (img.headD []).length th tw i j) := by
  rw [slice_image_def,
    flatten_getElem _ (nSlices (img.headD []).length tw)
      (by intro l hlm; obtain ⟨x, _, rfl⟩ := List.mem_map.mp hlm; simp)
      i j (by simpa using hi) hj]
  rw [List.getD_eq_getElem _ _ (by simpa using hi), List.getElem_map,
    List.getElem_range, List.getElem?_eq_getElem (by simpa using hj),
    List.getElem_map, List.getElem_range]

theorem pySlice_subset (a b : Int) (xs : List α) :
    ∀ x ∈ pySlice a b xs, x ∈ xs := by
  intro x hx
  unfold pySlice at hx
  exact List.mem_of_mem_drop (List.mem_of_mem_take hx)

/-- One axis of a tile has exactly `t` entries whenever `t` fits in the
axis extent. -/
theorem axis_slice_length {t idx : Nat} (xs : List α) (ht : 1 ≤ t)
    (hle : t ≤ xs.length) :
    (pySlice (tileStart t xs.length idx) (((idx + 1) * t : Nat) : Int) xs).length
      = t := by
  rcases le_or_lt ((idx + 1) * t) xs.length with hfit | hover
  · rw [pySlice_tile_interior _ _ _ hfit, List.length_take, List.length_drop]
    rw [Nat.add_mul, one_mul] at hfit
    omega
  · rw [pySlice_tile_boundary _ _ _ ht hover, List.length_drop]
    omega

theorem IsRect.headD_length {img : List (List β)} {h w : Nat}
    (hrect : IsRect img h w) (hpos : 1 ≤ h) : (img.headD []).length = w := by
  obtain ⟨hlen, hrow⟩ := hrect
  cases img with
  | nil => simp at hlen; omega
  | cons r rest => exact hrow r (List.mem_cons_self _ _)

/-- Every tile produced by `slice_image` has `th` rows of `tw` entries,
provided the tile size fits inside the image. -/
theorem slice_image_shape {img : List (List β)} {h w th tw : Nat}
    (hrect : IsRect img h w) (hth1 : 1 ≤ th) (hth2 : th ≤ h)
    (htw1 : 1 ≤ tw) (htw2 : tw ≤ w) :
    ∀ t ∈ slice_image img (th, tw), t.length = th ∧ ∀ row ∈ t, row.length = tw := by
  have hw : (img.headD []).length = w := hrect.headD_length (by omega)
  obtain ⟨hlen, hrow⟩ := hrect
  intro t ht
  obtain ⟨i, j, hi, hj, rfl⟩ := slice_image_mem ht
  constructor
  · rw [tileBody, List.length_map]
    exact axis_slice_length img hth1 (by omega)
  · intro row hrm
    rw [tileBody] at hrm
    obtain ⟨r, hr, rfl⟩ := List.mem_map.mp hrm
    have hrw : r.length = w := hrow r (pySlice_subset _ _ _ r hr)
    rw [hw, ← hrw]
    exact axis_slice_length r htw1 (by omega)

/-! ### Claim C1 -/

/-- Claim C1 (counterexample): on a `(1, 1)` image with tile size `(2, 2)`,
`slice_image` returns one tile of shape `(1, 1)`, not `(2, 2)`, so "each of
shape exactly `(th, tw)`" fails when the tile size exceeds the image
extent. -/
theorem slice_image_shape_cex :
    slice_image [[(5 : Int)]] (2, 2) = [[[5]]] ∧
      ¬ ∀ t ∈ slice_image [[(5 : Int)]] (2, 2), t.length = 2 := by decide

/-- Claim C1 (amended: the tile size must fit inside the image,
`1 ≤ th ≤ H` and `1 ≤ tw ≤ W`): `slice_image` returns exactly
`ceil(H/th) * ceil(W/tw)` tiles, each of shape `(th, tw)` (channels, when
present, ride along inside each entry), and the tile at flat position
`i * ceil(W/tw) + j` is the loop body's window for tile indices `(i, j)`:
row-major order. -/
theorem slice_image_count_shape_rowmajor (img : List (List β)) (h w th tw : Nat)
    (hrect : IsRect img h w) (hth1 : 1 ≤ th) (hth2 : th ≤ h)
    (htw1 : 1 ≤ tw) (htw2 : tw ≤ w) :
    (slice_image img (th, tw)).length = nSlices h th * nSlices w tw ∧
    (∀ t ∈ slice_image img (th, tw), t.length = th ∧ ∀ row ∈ t, row.length = tw) ∧
    (∀ i j, i < nSlices h th → j < nSlices w tw →
      (slice_image img (th, tw))[i * nSlices w tw + j]? =
        some (tileBody img h w th tw i j)) := by
  have hw : (img.headD []).length = w := hrect.headD_length (by omega)
  have hlen := hrect.1
  refine ⟨?_, slice_image_shape hrect hth1 hth2 htw1 htw2, ?_⟩
  · rw [slice_image_length, hlen, hw]
  · intro i j hi hj
    have hidx := slice_image_getElem img th tw i j
      (by rw [hlen]; exact hi) (by rw [hw]; exact hj)
    rw [hw, hlen] at hidx
    exact hidx

theorem slice_image_count_shape_rowmajor_witness :
    (slice_image [[(1 : Int), 2], [3, 4]] (1, 2)).length =
      nSlices 2 1 * nSlices 2 2 :=
  (slice_image_count_shape_rowmajor [[(1 : Int), 2], [3, 4]] 2 2 1 2
    (by decide) (by decide) (by decide) (by decide) (by decide)).1

/-! ### Claim C10 -/

/-- Claim C10: when `H < th` (and `tw` fits in `W`), the shifted start `-th`
clamps to `0` under slice semantics, so no tile wraps around to the tail:
every returned tile is the entire height-`H` extent of the image, of height
`H`, not `th`. -/
theorem slice_image_short (img : List (List β)) (h w th tw : Nat)
    (hrect : IsRect img h w) (hh : h < th) (htw1 : 1 ≤ tw) (htw2 : tw ≤ w) :
    ∀ t ∈ slice_image img (th, tw),
      t.length = h ∧ t.length ≠ th ∧
      ∃ j, t = img.map
        (fun row => pySlice (tileStart tw w j) (((j + 1) * tw : Nat) : Int) row) := by
  intro t ht
  obtain ⟨i, j, hi, hj, rfl⟩ := slice_image_mem ht
  have hlen := hrect.1
  rcases Nat.eq_zero_or_pos h with h0 | hpos
  · exfalso
    rw [hlen, h0] at hi
    have hz : nSlices 0 th = 0 := by
      unfold nSlices; exact Nat.div_eq_of_lt (by omega)
    omega
  · have hw : (img.headD []).length = w := hrect.headD_length hpos
    have hone : nSlices img.length th = 1 := by
      rw [hlen]; exact nSlices_eq_one hpos (by omega)
    have hi0 : i = 0 := by omega
    subst hi0
    have hbound : img.length < (0 + 1) * th := by rw [hlen]; omega
    rw [tileBody, pySlice_tile_boundary _ _ _ (by omega) hbound,
      show img.length - th = 0 from by omega, List.drop_zero, hw]
    exact ⟨by rw [List.length_map]; exact hlen,
      by rw [List.length_map]; omega, j, rfl⟩

theorem slice_image_short_witness :
    ((slice_image [[(1 : Int), 2, 3]] (2, 2)).headD []).length = 1 :=
  ((slice_image_short [[(1 : Int), 2, 3]] 1 3 2 2
    (by decide) (by decide) (by decide) (by decide)) _ (by decide)).1

/-! ### Claim C2 -/

/-- Claim C2: whenever a tile's nominal window `[i*th:(i+1)*th, j*tw:(j+1)*tw]`
would end past the array bound on an axis, the start of that axis is
shifted backward so the window ends exactly at the array bound, taking the
last `th` rows (`img[h-th:]`) resp. the last `tw` columns (`row[w-tw:]`);
in particular a `(1000, 1000)` array with tile size `(512, 512)` yields 4
tiles, each `(512, 512)`, with tile `(1, 1)` covering rows `488:1000` and
cols `488:1000`. -/
theorem slice_image_boundary_shift (img : List (List β)) (h w th tw : Nat)
    (hrect : IsRect img h w) (hth1 : 1 ≤ th) (htw1 : 1 ≤ tw) :
    (∀ i j : Nat,
      (h < (i + 1) * th →
        tileBody img h w th tw i j = (img.drop (h - th)).map
          (fun row => pySlice (tileStart tw w j) (((j + 1) * tw : Nat) : Int) row)) ∧
      (w < (j + 1) * tw →
        tileBody img h w th tw i j =
          (pySlice (tileStart th h i) (((i + 1) * th : Nat) : Int) img).map
            (fun row => row.drop (row.length - tw)))) ∧
    (h = 1000 → w = 1000 → th = 512 → tw = 512 →
      (slice_image img (th, tw)).length = 4 ∧
      (∀ t ∈ slice_image img (th, tw), t.length = 512 ∧ ∀ r ∈ t, r.length = 512) ∧
      (slice_image img (th, tw))[3]? =
        some ((img.drop 488).map (fun row => row.drop 488))) := by
  obtain ⟨hlen, hrow⟩ := hrect
  have hgen : ∀ i j : Nat,
      (h < (i + 1) * th →
        tileBody img h w th tw i j = (img.drop (h - th)).map
          (fun row => pySlice (tileStart tw w j) (((j + 1) * tw : Nat) : Int) row)) ∧
      (w < (j + 1) * tw →
        tileBody img h w th tw i j =
          (pySlice (tileStart th h i) (((i + 1) * th : Nat) : Int) img).map
            (fun row => row.drop (row.length - tw))) := by
    intro i j
    constructor
    · intro hover
      rw [tileBody, ← hlen, pySlice_tile_boundary _ _ _ hth1 (by omega), hlen]
    · intro hover
      rw [tileBody]
      refine List.map_congr_left (fun row hmem => ?_)
      have hrw : row.length = w := hrow row (pySlice_subset _ _ _ row hmem)
      rw [← hrw, pySlice_tile_boundary _ _ _ htw1 (by omega)]
  refine ⟨hgen, ?_⟩
  rintro rfl rfl rfl rfl
  have hw : (img.headD []).length = 1000 :=
    IsRect.headD_length ⟨hlen, hrow⟩ (by omega)
  have hns : nSlices 1000 512 = 2 := by decide
  refine ⟨?_, ?_, ?_⟩
  · rw [slice_image_length, hlen, hw, hns]
  · exact slice_image_shape ⟨hlen, hrow⟩ (by omega) (by omega) (by omega) (by omega)
  · have hidx := slice_image_getElem img 512 512 1 1
      (by rw [hlen, hns]; omega) (by rw [hw, hns]; omega)
    rw [hw, hns, hlen] at hidx
    rw [show (1 : Nat) * 2 + 1 = 3 from rfl] at hidx
    rw [(hgen 1 1).1 (by omega)] at hidx
    rw [hidx]
    congr 1
    rw [show (1000 : Nat) - 512 = 488 from rfl]
    refine List.map_congr_left (fun row hmem => ?_)
    have hrw : row.length = 1000 := hrow row (List.mem_of_mem_drop hmem)
    rw [← hrw, pySlice_tile_boundary _ _ _ (by omega) (by omega), hrw]

theorem slice_image_boundary_shift_witness :
    (slice_image (List.replicate 1000 (List.replicate 1000 (0 : Int)))
      (512, 512)).length = 4 := by
  have hrect : IsRect (List.replicate 1000 (List.replicate 1000 (0 : Int))) 1000 1000 := by
    constructor
    · rw [List.length_replicate]
    · intro row hmem
      rw [List.eq_of_mem_replicate hmem, List.length_replicate]
  exact (((slice_image_boundary_shift _ 1000 1000 512 512 hrect
    (by omega) (by omega)).2) rfl rfl rfl rfl).1

/-! ### Claim C3: reconstruction of an exactly-tiled image -/

/-- Horizontal concatenation of a row of tiles of `th` rows each: the rows
are concatenated pointwise (written from the spec's "concatenating the
tiles back"; the empty concatenation of height `th` is `th` empty rows). -/
def hcat (th : Nat) (ts : List (List (List β))) : List (List β) :=
  ts.foldr (fun t acc => List.zipWith (· ++ ·) t acc) (List.replicate th [])

theorem hcat_cons (th : Nat) (t : List (List β)) (ts : List (List (List β))) :
    hcat th (t :: ts) = List.zipWith (· ++ ·) t (hcat th ts) := rfl

/-- Reassembly of a row-major list of `k * m` tiles of `th` rows each
(written from the spec's words): consecutive groups of `m` tiles are
concatenated horizontally into block rows, which are stacked vertically. -/
def reassemble (k m th : Nat) (tiles : List (List (List β))) : List (List β) :=
  ((List.range k).map (fun i => hcat th ((tiles.drop (i * m)).take m))).flatten

/-- The nominal (unshifted) source window of tile `(i, j)`. -/
def inWindow (th tw i j r c : Nat) : Prop :=
  i * th ≤ r ∧ r < (i + 1) * th ∧ j * tw ≤ c ∧ c < (j + 1) * tw

/-- Concatenating the `t`-sized chunks of a list of length `m * t`
reconstructs the list. -/
theorem flatten_chunks (m t : Nat) (ht : 1 ≤ t) :
    ∀ xs : List γ, xs.length = m * t →
      ((List.range m).map (fun j => (xs.drop (j * t)).take t)).flatten = xs := by
  induction m with
  | zero =>
    intro xs hx
    rw [Nat.zero_mul] at hx
    rw [List.range_zero, List.map_nil, List.flatten_nil,
      List.eq_nil_of_length_eq_zero hx]
  | succ m ih =>
    intro xs hx
    rw [List.range_succ_eq_map, List.map_cons, List.flatten_cons,
      Nat.zero_mul, List.drop_zero, List.map_map]
    have htail : ∀ j ∈ List.range m,
        ((fun j => (xs.drop (j * t)).take t) ∘ Nat.succ) j =
          (((xs.drop t).drop (j * t)).take t) := by
      intro j _
      simp only [Function.comp_apply]
      rw [List.drop_drop, Nat.succ_mul, Nat.add_comm]
    rw [List.map_congr_left htail,
      ih (xs.drop t) (by rw [List.length_drop, hx, Nat.succ_mul]; omega),
      List.take_append_drop]

/-- Horizontally concatenating the `t`-wide column chunks of `th` rows of
width `m * t` reconstructs the rows. -/
theorem hcat_chunks (t th : Nat) (ht : 1 ≤ t) :
    ∀ (m : Nat) (rows : List (List β)), rows.length = th →
      (∀ r ∈ rows, r.length = m * t) →
      hcat th ((List.range m).map
        (fun j => rows.map (fun r => (r.drop (j * t)).take t))) = rows := by
  intro m
  induction m with
  | zero =>
    intro rows hlen hrow
    rw [List.range_zero, List.map_nil]
    unfold hcat
    rw [List.foldr_nil]
    symm
    rw [List.eq_replicate_iff]
    refine ⟨hlen, fun r hr => List.length_eq_zero.mp ?_⟩
    rw [hrow r hr, Nat.zero_mul]
  | succ m ih =>
    intro rows hlen hrow
    rw [List.range_succ_eq_map, List.map_cons, hcat_cons, List.map_map]
    have htail : ∀ j ∈ List.range m,
        ((fun j => rows.map (fun r => (r.drop (j * t)).take t)) ∘ Nat.succ) j =
          (rows.map (fun r => r.drop t)).map (fun r => (r.drop (j * t)).take t) := by
      intro j _
      simp only [Function.comp_apply, List.map_map]
      refine List.map_congr_left (fun r _ => ?_)
      simp only [Function.comp_apply]
      rw [List.drop_drop, Nat.succ_mul, Nat.add_comm]
    rw [List.map_congr_left htail,
      ih (rows.map (fun r => r.drop t))
        (by rw [List.length_map]; exact hlen)
        (by intro r hr
            obtain ⟨r0, hr0, rfl⟩ := List.mem_map.mp hr
            rw [List.length_drop, hrow r0 hr0, Nat.succ_mul]
            omega)]
    simp only [Nat.zero_mul, List.drop_zero]
    rw [List.zipWith_map ((· ++ ·) : List β → List β → List β)
      (fun r => r.take t) (fun r => r.drop t) rows rows,
      List.zipWith_same]
    rw [List.map_congr_left (fun r _ => List.take_append_drop t r), List.map_id']

/-- Extracting the `i`-th block of a flattening of equal-length blocks. -/
theorem drop_take_flatten (L : List (List γ)) (m : Nat)
    (hm : ∀ l ∈ L, l.length = m) :
    ∀ i, i < L.length → (L.flatten.drop (i * m)).take m = L.getD i [] := by
  induction L with
  | nil => intro i hi; simp at hi
  | cons l L ih =>
    intro i hi
    have hl : l.length = m := hm l (List.mem_cons_self _ _)
    cases i with
    | zero =>
      rw [Nat.zero_mul, List.flatten_cons, List.drop_zero, List.getD_cons_zero,
        ← hl, List.take_left]
    | succ i =>
      rw [List.flatten_cons,
        show (i + 1) * m = l.length + i * m from by
          rw [hl, Nat.add_mul, one_mul]; omega,
        ← List.drop_drop, List.drop_left, List.getD_cons_succ]
      exact ih (fun x hx => hm x (List.mem_cons_of_mem _ hx)) i
        (by simpa using hi)

/-- On an exactly-tiled image (`H = k*th`, `W = m*tw`) no window is
shifted: `slice_image` is the row-major list of the exact windows. -/
theorem slice_image_exact (img : List (List β)) (k m th tw : Nat)
    (hth : 1 ≤ th) (htw : 1 ≤ tw) (hrect : IsRect img (k * th) (m * tw)) :
    slice_image img (th, tw) =
      ((List.range k).map (fun i =>
        (List.range m).map (fun j =>
          ((img.drop (i * th)).take th).map
            (fun r => (r.drop (j * tw)).take tw)))).flatten := by
  obtain ⟨hlen, hrow⟩ := hrect
  rw [slice_image_def]
  rcases Nat.eq_zero_or_pos k with rfl | hk
  · rw [hlen, Nat.zero_mul,
      show nSlices 0 th = 0 from by unfold nSlices; exact Nat.div_eq_of_lt (by omega),
      List.range_zero, List.map_nil, List.map_nil]
  · have hw : (img.headD []).length = m * tw :=
      IsRect.headD_length ⟨hlen, hrow⟩ (Nat.mul_pos hk hth)
    rw [hlen, hw, nSlices_exact k th hth, nSlices_exact m tw htw]
    congr 1
    refine List.map_congr_left (fun i hi => ?_)
    refine List.map_congr_left (fun j hj => ?_)
    have hi' : i < k := List.mem_range.mp hi
    have hj' : j < m := List.mem_range.mp hj
    have hfit : (i + 1) * th ≤ img.length := by
      rw [hlen]; exact Nat.mul_le_mul_right th (by omega)
    rw [tileBody, ← hlen, pySlice_tile_interior _ _ _ hfit]
    refine List.map_congr_left (fun r hr => ?_)
    have hrw : r.length = m * tw :=
      hrow r (List.mem_of_mem_drop (List.mem_of_mem_take hr))
    have hfitc : (j + 1) * tw ≤ r.length := by
      rw [hrw]; exact Nat.mul_le_mul_right tw (by omega)
    rw [← hrw, pySlice_tile_interior _ _ _ hfitc]

/-- Claim C3: on an image whose height is an exact multiple of `th` and
whose width is an exact multiple of `tw`, `slice_image` produces the
`k * m` exact windows (so their nominal source windows are pairwise
disjoint) and reassembling the tiles in row-major order reconstructs the
image exactly. -/
theorem slice_image_disjoint_reassemble (img : List (List β)) (k m th tw : Nat)
    (hth : 1 ≤ th) (htw : 1 ≤ tw) (hrect : IsRect img (k * th) (m * tw)) :
    (slice_image img (th, tw)).length = k * m ∧
    (∀ i j, i < k → j < m →
      (slice_image img (th, tw))[i * m + j]? =
        some (((img.drop (i * th)).take th).map
          (fun r => (r.drop (j * tw)).take tw))) ∧
    (∀ i j i' j' r c : Nat, inWindow th tw i j r c → inWindow th tw i' j' r c →
      i = i' ∧ j = j') ∧
    reassemble k m th (slice_image img (th, tw)) = img := by
  have hexact := slice_image_exact img k m th tw hth htw hrect
  obtain ⟨hlen, hrow⟩ := hrect
  have hblen : ∀ l ∈ (List.range k).map (fun i =>
      (List.range m).map (fun j =>
        ((img.drop (i * th)).take th).map
          (fun r => (r.drop (j * tw)).take tw))), l.length = m := by
    intro l hl
    obtain ⟨i, _, rfl⟩ := List.mem_map.mp hl
    rw [List.length_map, List.length_range]
  have hrowsfit : ∀ i, i < k →
      ((img.drop (i * th)).take th).length = th := by
    intro i hi
    have hfit : (i + 1) * th ≤ k * th := Nat.mul_le_mul_right th (by omega)
    rw [Nat.add_mul, one_mul] at hfit
    rw [List.length_take, List.length_drop, hlen]
    omega
  refine ⟨?_, ?_, ?_, ?_⟩
  · rw [hexact, List.length_flatten, List.map_map]
    simp only [Function.comp_def, List.length_map, List.length_range]
    rw [List.map_const', List.length_range, List.sum_replicate, smul_eq_mul]
  · intro i j hi hj
    rw [hexact, flatten_getElem _ m hblen i j (by simpa using hi) hj,
      List.getD_eq_getElem _ _ (by simpa using hi), List.getElem_map,
      List.getElem_range, List.getElem?_eq_getElem (by simpa using hj),
      List.getElem_map, List.getElem_range]
  · intro i j i' j' r c hw hw'
    obtain ⟨h1, h2, h3, h4⟩ := hw
    obtain ⟨h5, h6, h7, h8⟩ := hw'
    constructor
    · rw [← Nat.div_eq_of_lt_le h1 h2, ← Nat.div_eq_of_lt_le h5 h6]
    · rw [← Nat.div_eq_of_lt_le h3 h4, ← Nat.div_eq_of_lt_le h7 h8]
  · rw [hexact, reassemble]
    have hstep : ∀ i ∈ List.range k,
        hcat th (((((List.range k).map (fun i =>
          (List.range m).map (fun j =>
            ((img.drop (i * th)).take th).map
              (fun r => (r.drop (j * tw)).take tw)))).flatten).drop (i * m)).take m)
          = (img.drop (i * th)).take th := by
      intro i hi
      have hi' : i < k := List.mem_range.mp hi
      rw [drop_take_flatten _ m hblen i (by simpa using hi'),
        List.getD_eq_getElem _ _ (by simpa using hi'), List.getElem_map,
        List.getElem_range]
      exact hcat_chunks tw th htw m _ (hrowsfit i hi')
        (fun r hr => hrow r (List.mem_of_mem_drop (List.mem_of_mem_take hr)))
    rw [List.map_congr_left hstep]
    exact flatten_chunks k th hth img hlen

theorem slice_image_disjoint_reassemble_witness :
    reassemble 2 2 1 (slice_image [[(1 : Int), 2], [3, 4]] (1, 1)) =
      [[(1 : Int), 2], [3, 4]] :=
  (slice_image_disjoint_reassemble [[(1 : Int), 2], [3, 4]] 2 2 1 1
    (by decide) (by decide) (by decide)).2.2.2

/-! ### Elementwise band/mask operations (utils.py)

A channels-first raster image is a function `Nat → Nat → Nat → ℚ`
(band, row, column); a 2D mask is `Nat → Nat → ℤ`.  All the operations
below are elementwise, so they are embedded per pixel; band values are
rationals (the claims under test concern exact zero tests and
comparisons, not rounding). -/

/-- `get_snow_index(img)` without threshold (utils.py lines 22-28): the
index starts as `zeros_like(img[0])` and is overwritten with
`(img[1]-img[4]) / (img[1]+img[4])` exactly at pixels where
`img[1]+img[4] != 0`, so pixelwise it is an exact-guard conditional. -/
def get_snow_index (img : Nat → Nat → Nat → ℚ) (r c : Nat) : ℚ :=
  if img 1 r c + img 4 r c ≠ 0 then
    (img 1 r c - img 4 r c) / (img 1 r c + img 4 r c)
  else 0

/-- `get_snow_index(img, thresh)` with a threshold (utils.py lines 30-31):
the boolean array `index > thresh`. -/
def get_snow_index_t (img : Nat → Nat → Nat → ℚ) (thresh : ℚ) (r c : Nat) : Bool :=
  if thresh < get_snow_index img r c then true else false

/-- A numpy boolean compared against an integer: `True == 1`, `False == 0`. -/
def boolVal (b : Bool) : ℤ := if b then 1 else 0

/-- `merge_mask_snow_i(img, mask, thresh)` (utils.py lines 43-49):
`hybrid_mask = zeros_like(mask)`, then `1` where `snow_i == 1` and
`mask == 1`, then `2` where `snow_i == 0` and `mask == 1`; the later
assignment is applied after the earlier one. -/
def merge_mask_snow_i (img : Nat → Nat → Nat → ℚ) (mask : Nat → Nat → ℤ)
    (thresh : ℚ) (r c : Nat) : ℤ :=
  let snow_i := get_snow_index_t img thresh r c
  let v0 : ℤ := 0
  let v1 : ℤ := if boolVal snow_i = 1 ∧ mask r c = 1 then 1 else v0
  if boolVal snow_i = 0 ∧ mask r c = 1 then 2 else v1

/-- `get_bg(mask)` for a 2D mask (utils.py lines 51-60): `fg` is the mask
itself, `bg = logical_not(fg)` (a zero entry is falsy), and
`np.stack((fg, bg))` prepends a channel axis of extent two; stacking the
integer `fg` with the boolean `bg` promotes booleans to `1`/`0`. -/
def get_bg (mask : Nat → Nat → ℤ) (ch : Fin 2) (r c : Nat) : ℤ :=
  if ch = 0 then mask r c else if mask r c = 0 then 1 else 0

/-- The per-pixel pipeline of `get_mask` (utils.py lines 70-75) applied to
the first band returned by `rasterio.mask.mask` (an external raster whose
pixels may be NaN, embedded as `Option ℚ` with `none` for NaN):
`binary_mask[isnan(binary_mask)] = nan_value`, then
`binary_mask[binary_mask > 0] = 1`. -/
def get_mask (band : Nat → Nat → Option ℚ) (nan_value : ℚ) (r c : Nat) : ℚ :=
  let x := match band r c with
    | none => nan_value
    | some q => q
  if x > 0 then 1 else x

/-! ### Claim C4 -/

/-- Claim C4 (counterexample): at a pixel where `band1 + band4 = 0` the raw
index is 0, but with the negative threshold `-1` the thresholded output is
`True` (not 0), because `0 > -1`: "for every threshold value" fails. -/
theorem get_snow_index_zero_denominator_cex :
    (fun _ _ _ => (0 : ℚ)) 1 0 0 + (fun _ _ _ => (0 : ℚ)) 4 0 0 = 0 ∧
    get_snow_index (fun _ _ _ => (0 : ℚ)) 0 0 = 0 ∧
    get_snow_index_t (fun _ _ _ => (0 : ℚ)) (-1) 0 0 = true := by
  refine ⟨by norm_num, by norm_num [get_snow_index], ?_⟩
  norm_num [get_snow_index_t, get_snow_index]

/-- Claim C4 (amended: the thresholded clause holds for every nonnegative
threshold): at every pixel where `band1 + band4 = 0`, `get_snow_index`
never divides by zero; the raw index is 0 there, and for every threshold
`≥ 0` the thresholded output is `False` (0). -/
theorem get_snow_index_zero_denominator (img : Nat → Nat → Nat → ℚ) (r c : Nat)
    (h : img 1 r c + img 4 r c = 0) :
    get_snow_index img r c = 0 ∧
    ∀ thresh : ℚ, 0 ≤ thresh → get_snow_index_t img thresh r c = false := by
  have h0 : get_snow_index img r c = 0 := by
    unfold get_snow_index
    rw [if_neg (not_not_intro h)]
  refine ⟨h0, fun thresh ht => ?_⟩
  unfold get_snow_index_t
  rw [h0, if_neg (by linarith)]

theorem get_snow_index_zero_denominator_witness :
    get_snow_index (fun _ _ _ => (0 : ℚ)) 0 0 = 0 ∧
      get_snow_index_t (fun _ _ _ => (0 : ℚ)) 0 0 0 = false :=
  ⟨(get_snow_index_zero_denominator (fun _ _ _ => 0) 0 0 (by norm_num)).1,
   (get_snow_index_zero_denominator (fun _ _ _ => 0) 0 0 (by norm_num)).2 0 le_rfl⟩

/-! ### Claim C9 -/

/-- Claim C9: for a mask with values in `{0, 1}`, `merge_mask_snow_i`
partitions the mask: the output is 0 exactly where the mask is 0, and at
every mask-1 pixel the output is 1 when the thresholded snow index is true
and 2 when it is false — no mask-1 pixel is left unclassified. -/
theorem merge_mask_snow_i_partition (img : Nat → Nat → Nat → ℚ)
    (mask : Nat → Nat → ℤ) (thresh : ℚ) (r c : Nat)
    (hmask : mask r c = 0 ∨ mask r c = 1) :
    (merge_mask_snow_i img mask thresh r c = 0 ↔ mask r c = 0) ∧
    (mask r c = 1 →
      (get_snow_index_t img thresh r c = true →
        merge_mask_snow_i img mask thresh r c = 1) ∧
      (get_snow_index_t img thresh r c = false →
        merge_mask_snow_i img mask thresh r c = 2)) := by
  unfold merge_mask_snow_i boolVal
  cases hsnow : get_snow_index_t img thresh r c <;>
    rcases hmask with h | h <;> simp [h, hsnow]

theorem merge_mask_snow_i_partition_witness :
    merge_mask_snow_i (fun _ _ _ => (0 : ℚ)) (fun _ _ => (0 : ℤ)) (6/10) 0 0 = 0 :=
  ((merge_mask_snow_i_partition (fun _ _ _ => 0) (fun _ _ => 0) (6/10) 0 0
    (Or.inl rfl)).1).mpr rfl

/-! ### Claim C6 -/

/-- Claim C6 (counterexample): `get_mask` leaves nonpositive raster values
unchanged, so a raster pixel holding `-1` yields `-1`, which is outside
`{0, 1}`. -/
theorem get_mask_binary_cex :
    get_mask (fun _ _ => some (-1)) 0 0 0 = -1 ∧
      ¬(get_mask (fun _ _ => some (-1)) 0 0 0 = 0 ∨
        get_mask (fun _ _ => some (-1)) 0 0 0 = 1) := by
  norm_num [get_mask]

theorem if_pos_clamp (x : ℚ) (hx : 0 ≤ x) :
    (if x > 0 then (1 : ℚ) else x) = 0 ∨ (if x > 0 then (1 : ℚ) else x) = 1 := by
  split
  · exact Or.inr rfl
  · next h => exact Or.inl (le_antisymm (not_lt.mp h) hx)

/-- Claim C6 (amended: the `{0, 1}` guarantee of `get_mask` needs the
raster's non-NaN values and the `nan_value` argument to be nonnegative —
negative values pass through unchanged): under those hypotheses every
`get_mask` value lies in `{0, 1}`, and every `merge_mask_snow_i` value
lies unconditionally in `{0, 1, 2}`. -/
theorem mask_values_binary_or_hybrid (band : Nat → Nat → Option ℚ)
    (nan_value : ℚ) (hnan : 0 ≤ nan_value)
    (hband : ∀ r c q, band r c = some q → 0 ≤ q) :
    (∀ r c, get_mask band nan_value r c = 0 ∨ get_mask band nan_value r c = 1) ∧
    (∀ (img : Nat → Nat → Nat → ℚ) (mask : Nat → Nat → ℤ) (thresh : ℚ) (r c : Nat),
      merge_mask_snow_i img mask thresh r c = 0 ∨
      merge_mask_snow_i img mask thresh r c = 1 ∨
      merge_mask_snow_i img mask thresh r c = 2) := by
  constructor
  · intro r c
    unfold get_mask
    cases hb : band r c with
    | none =>
      simp only
      exact if_pos_clamp nan_value hnan
    | some q =>
      simp only
      exact if_pos_clamp q (hband r c q hb)
  · intro img mask thresh r c
    unfold merge_mask_snow_i
    dsimp only
    split
    · exact Or.inr (Or.inr rfl)
    · split
      · exact Or.inr (Or.inl rfl)
      · exact Or.inl rfl

theorem mask_values_binary_or_hybrid_witness :
    get_mask (fun _ _ => some (1 : ℚ)) 0 0 0 = 0 ∨
      get_mask (fun _ _ => some (1 : ℚ)) 0 0 0 = 1 :=
  (mask_values_binary_or_hybrid (fun _ _ => some 1) 0 le_rfl
    (fun _ _ q hq => by rw [← Option.some.inj hq]; norm_num)).1 0 0

/-! ### Claim C8 -/

/-- Claim C8: on an all-zero 2D mask, `get_bg` returns a 2-channel stack
with channel 0 (foreground) all `False` (0 after integer promotion) and
channel 1 (background) all `True` (1). -/
theorem get_bg_all_zero (mask : Nat → Nat → ℤ) (hmask : ∀ r c, mask r c = 0) :
    ∀ r c, get_bg mask 0 r c = 0 ∧ get_bg mask 1 r c = 1 := by
  intro r c
  unfold get_bg
  rw [hmask r c]
  constructor
  · simp
  · simp

theorem get_bg_all_zero_witness :
    get_bg (fun _ _ => (0 : ℤ)) 0 0 0 = 0 ∧ get_bg (fun _ _ => (0 : ℤ)) 1 0 0 = 1 :=
  get_bg_all_zero (fun _ _ => 0) (fun _ _ => rfl) 0 0

/-! ### Framework model dispatch (frame.py lines 34-39) -/

/-- The two model variants recognized by `Framework.__init__`.  The model
classes themselves (`src.models.unet.Unet`,
`src.models.unet_dropout.UnetDropout`) are outside the embedded sources,
so only which variant was selected is represented. -/
inductive ModelVariant where
  | Unet
  | UnetDropout
deriving DecidableEq

/-- The model-name dispatch of `Framework.__init__` (frame.py lines
34-39): `"Unet"` and `"UnetDropout"` select their variants; any other
name raises `ValueError("Unknown model name")`, embedded as
`Except.error`. -/
def framework_select_model (name : String) : Except String ModelVariant :=
  if name = "Unet" then Except.ok ModelVariant.Unet
  else if name = "UnetDropout" then Except.ok ModelVariant.UnetDropout
  else Except.error "Unknown model name"

/-- Claim C7: constructing a `Framework` with a model name other than
`"Unet"` or `"UnetDropout"` raises a fatal configuration error
(`ValueError`), with no retry; the two recognized names pass the check. -/
theorem framework_select_model_spec :
    (∀ name : String, name ≠ "Unet" → name ≠ "UnetDropout" →
      framework_select_model name = Except.error "Unknown model name") ∧
    framework_select_model "Unet" = Except.ok ModelVariant.Unet ∧
    framework_select_model "UnetDropout" = Except.ok ModelVariant.UnetDropout := by
  refine ⟨fun name h1 h2 => ?_, rfl, rfl⟩
  unfold framework_select_model
  rw [if_neg h1, if_neg h2]

theorem framework_select_model_spec_witness :
    framework_select_model "SegNet" = Except.error "Unknown model name" :=
  framework_select_model_spec.1 "SegNet" (by decide) (by decide)

/-! ### Framework.calculate_metrics (frame.py lines 107-128) -/

/-- A torch tensor of arbitrary rank with rational entries (the claims
under test concern control flow, not numerics). -/
inductive Tens where
  | scalar (v : ℚ)
  | arr (ts : List Tens)

/-- Iterating a tensor yields its outermost-axis slices. -/
def Tens.items : Tens → List Tens
  | .scalar _ => []
  | .arr ts => ts

/-- `t.bool()`: elementwise `!= 0`, kept as 0/1 entries. -/
def Tens.toBool : Tens → Tens
  | .scalar v => .scalar (if v ≠ 0 then 1 else 0)
  | .arr ts => .arr (ts.attach.map (fun x => x.1.toBool))
decreasing_by
  simp_wf
  have hs := List.sizeOf_lt_of_mem x.2
  omega

/-- `np.mean` of an accumulator list (only ever taken of a nonempty
list in the code path that reaches it). -/
def npMean (l : List ℚ) : ℚ := l.sum / l.length

/-- `np.sum` of an accumulator list. -/
def npSum (l : List ℚ) : ℚ := l.sum

/-- A metric configuration entry: whether the `"threshold"` key is present
and its value. -/
structure MetricOpt where
  threshold : Option ℚ

/-- The innermost (channel) loop body of `calculate_metrics` (frame.py
lines 116-127), one statement per line of the source.  The state is the
tuple of function-scoped variables it can rebind or extend:
`(y, y_hat, results, b_metric, c_metric)`.  `sigmoidGt t` stands for
`torch.sigmoid(...) > t` and `metricFun` for
`getattr(src.utils.metrics, k)` (the metrics module is outside the
embedded sources); both are parameters — note the `some` branch computes
the thresholded `y_hat` and then does nothing further with it, exactly as
the Python indentation dictates. -/
def channelStep (sigmoidGt : ℚ → Tens → Tens)
    (metricFun : String → Tens → Tens → ℚ) (km : String × MetricOpt)
    (st : Tens × Tens × List ℚ × List ℚ × List ℚ) (cwp : Tens × Tens) :
    Tens × Tens × List ℚ × List ℚ × List ℚ :=
  match st, cwp with
  | (_, _, results, b_metric, c_metric), (channel_wise_y, channel_wise_y_hat) =>
    let y := channel_wise_y.toBool
    match (km.2).threshold with
    | some t =>
      let y_hat := sigmoidGt t channel_wise_y_hat
      (y, y_hat, results, b_metric, c_metric)
    | none =>
      let y_hat := channel_wise_y_hat.toBool
      let metric_value := metricFun km.1 y_hat y
      let c_metric2 := c_metric ++ [metric_value]
      let b_metric2 := b_metric ++ [npMean c_metric2]
      let results2 := results ++ [npSum b_metric2]
      (y, y_hat, results2, b_metric2, c_metric2)

/-- The batch loop body (frame.py lines 114-115): `c_metric = []`, then the
channel loop over `zip(batch_y, batch_y_hat)` (the zip is captured at loop
entry, before any rebinding of `y`/`y_hat` inside). -/
def batchStep (sigmoidGt : ℚ → Tens → Tens)
    (metricFun : String → Tens → Tens → ℚ) (km : String × MetricOpt)
    (st : Tens × Tens × List ℚ × List ℚ) (byp : Tens × Tens) :
    Tens × Tens × List ℚ × List ℚ :=
  match st, byp with
  | (y, y_hat, results, b_metric), (batch_y, batch_y_hat) =>
    let st3 := (batch_y.items.zip batch_y_hat.items).foldl
      (channelStep sigmoidGt metricFun km) (y, y_hat, results, b_metric, [])
    (st3.1, st3.2.1, st3.2.2.1, st3.2.2.2.1)

/-- The metric loop body (frame.py lines 112-113): `b_metric = []`, then
the batch loop over `zip(y, y_hat)` — using the current values of the
function-scoped `y`/`y_hat`, which previous iterations may have rebound. -/
def metricStep (sigmoidGt : ℚ → Tens → Tens)
    (metricFun : String → Tens → Tens → ℚ)
    (st : Tens × Tens × List ℚ) (km : String × MetricOpt) :
    Tens × Tens × List ℚ :=
  match st with
  | (y, y_hat, results) =>
    let st2 := (y.items.zip y_hat.items).foldl
      (batchStep sigmoidGt metricFun km) (y, y_hat, results, [])
    (st2.1, st2.2.1, st2.2.2.1)

/-- `Framework.calculate_metrics(y_hat, y)` (frame.py lines 107-128):
`results = []`, loop over the configured metrics, return the accumulated
`results`. -/
def calculate_metrics (sigmoidGt : ℚ → Tens → Tens)
    (metricFun : String → Tens → Tens → ℚ)
    (metrics_opts : List (String × MetricOpt)) (y_hat y : Tens) : List ℚ :=
  (metrics_opts.foldl (metricStep sigmoidGt metricFun) (y, y_hat, [])).2.2

/-! ### Claim C5 -/

theorem channelStep_threshold (sigmoidGt : ℚ → Tens → Tens)
    (metricFun : String → Tens → Tens → ℚ) (km : String × MetricOpt)
    {t : ℚ} (hthr : (km.2).threshold = some t)
    (st : Tens × Tens × List ℚ × List ℚ × List ℚ) (cwp : Tens × Tens) :
    (channelStep sigmoidGt metricFun km st cwp).2.2 = st.2.2 := by
  obtain ⟨y, yh, res, b, c⟩ := st
  obtain ⟨cw, cwh⟩ := cwp
  unfold channelStep
  rw [hthr]

theorem channelFold_threshold (sigmoidGt : ℚ → Tens → Tens)
    (metricFun : String → Tens → Tens → ℚ) (km : String × MetricOpt)
    {t : ℚ} (hthr : (km.2).threshold = some t) :
    ∀ (l : List (Tens × Tens)) (st : Tens × Tens × List ℚ × List ℚ × List ℚ),
      (l.foldl (channelStep sigmoidGt metricFun km) st).2.2 = st.2.2 := by
  intro l
  induction l with
  | nil => intro st; rfl
  | cons p l ih =>
    intro st
    rw [List.foldl_cons, ih, channelStep_threshold _ _ _ hthr]

theorem batchFold_threshold (sigmoidGt : ℚ → Tens → Tens)
    (metricFun : String → Tens → Tens → ℚ) (km : String × MetricOpt)
    {t : ℚ} (hthr : (km.2).threshold = some t) :
    ∀ (l : List (Tens × Tens)) (st : Tens × Tens × List ℚ × List ℚ),
      (l.foldl (batchStep sigmoidGt metricFun km) st).2.2 = st.2.2 := by
  intro l
  induction l with
  | nil => intro st; rfl
  | cons p l ih =>
    intro st
    rw [List.foldl_cons, ih]
    obtain ⟨y, yh, res, b⟩ := st
    obtain ⟨by1, byh⟩ := p
    unfold batchStep
    have h3 := channelFold_threshold sigmoidGt metricFun km hthr
      (by1.items.zip byh.items) (y, yh, res, b, [])
    dsimp only
    rw [show ((by1.items.zip byh.items).foldl
        (channelStep sigmoidGt metricFun km) (y, yh, res, b, [])).2.2.1
          = res from by rw [h3],
      show ((by1.items.zip byh.items).foldl
        (channelStep sigmoidGt metricFun km) (y, yh, res, b, [])).2.2.2.1
          = b from by rw [h3]]

/-- Claim C5 (general form of the failure): when every configured metric
carries a `"threshold"` key, `calculate_metrics` returns an empty report —
the thresholded `y_hat` is computed and discarded, and none of the three
`append`s ever runs, because they sit inside the `else` branch of the
threshold test. -/
theorem calculate_metrics_all_threshold_empty (sigmoidGt : ℚ → Tens → Tens)
    (metricFun : String → Tens → Tens → ℚ)
    (metrics_opts : List (String × MetricOpt))
    (hthr : ∀ km ∈ metrics_opts, ∃ t, (km.2).threshold = some t)
    (y_hat y : Tens) :
    calculate_metrics sigmoidGt metricFun metrics_opts y_hat y = [] := by
  unfold calculate_metrics
  suffices hgen : ∀ (opts : List (String × MetricOpt)),
      (∀ km ∈ opts, ∃ t, (km.2).threshold = some t) →
      ∀ st : Tens × Tens × List ℚ,
        (opts.foldl (metricStep sigmoidGt metricFun) st).2.2 = st.2.2 by
    rw [hgen metrics_opts hthr (y, y_hat, [])]
  intro opts
  induction opts with
  | nil => intro _ st; rfl
  | cons km opts ih =>
    intro hall st
    rw [List.foldl_cons, ih (fun x hx => hall x (List.mem_cons_of_mem _ hx))]
    obtain ⟨y0, yh0, res0⟩ := st
    obtain ⟨t, hthr1⟩ := hall km (List.mem_cons_self _ _)
    unfold metricStep
    dsimp only
    rw [show ((y0.items.zip yh0.items).foldl
        (batchStep sigmoidGt metricFun km) (y0, yh0, res0, [])).2.2.1 = res0 from by
      rw [batchFold_threshold sigmoidGt metricFun km hthr1]]

/-- Claim C5 (failing input, closed evaluation): one configured metric
`"IoU"` with threshold `2/5`, one batch with one channel: the report comes
back empty, with no entry for the configured metric. -/
theorem calculate_metrics_cex :
    calculate_metrics (fun _ t => t) (fun _ _ _ => 0)
      [("IoU", ⟨some (2/5)⟩)]
      (Tens.arr [Tens.arr [Tens.scalar 1]])
      (Tens.arr [Tens.arr [Tens.scalar 0]]) = [] := rfl

/-! ### Concrete evaluations of the embedded `slice_image` -/

/-- Unit tiling enumerates the pixels in row-major order. -/
theorem slice_image_eval_unit :
    slice_image [[1, 2], [3, 4]] (1, 1) = [[[1]], [[2]], [[3]], [[4]]] := by decide

/-- An exactly-fitting tile size returns the whole image as one tile. -/
theorem slice_image_eval_whole :
    slice_image [[1, 2], [3, 4]] (2, 2) = [[[1, 2], [3, 4]]] := by decide

/-- Boundary overlap: 3 rows with tile height 2 give rows `0:2` then the
shifted rows `1:3`. -/
theorem slice_image_eval_overlap :
    slice_image [[1], [2], [3]] (2, 1) = [[[1], [2]], [[2], [3]]] := by decide

/-- With `h < th` each tile keeps the full height 1: no wraparound. -/
theorem slice_image_eval_short :
    slice_image [[1, 2, 3]] (2, 2) = [[[1, 2]], [[2, 3]]] := by decide

end GlacierMapping
